import Mathlib

/-!
Shallow embedding of `src/routing.rs` (client-side URL router): the pattern
parser (`Parser`), the route matcher (`Route::matches`), the path splitter
(`split_path`) and the navigation state (`Router`).

Rust strings are embedded as `List Char` (the sequence of Unicode scalar
values).  The original parser mixes two units: `Parser::eol` compares the
cursor `index` against `input.len()`, which is the UTF-8 *byte* length,
while `peek` and `consume_char` read `input.chars().nth(index)`, which
indexes by *chars* and falls back to `char::default()` (the NUL character)
past the end.  The embedding reproduces this faithfully: `byteLen` computes
the UTF-8 byte length of a char list, `Parser.peek` indexes by position with
NUL as default.
-/

/-- A Rust `String` / `&str`, embedded as its sequence of chars. -/
abbrev Str := List Char

/-- UTF-8 encoded length of one char, as computed by Rust `char::len_utf8`. -/
def utf8Len (c : Char) : Nat :=
  if c.toNat < 0x80 then 1
  else if c.toNat < 0x800 then 2
  else if c.toNat < 0x10000 then 3
  else 4

/-- Rust `str::len`: the UTF-8 byte length of the string. -/
def byteLen (s : Str) : Nat := (s.map utf8Len).sum

/-- `enum Segment` from `routing.rs`: a compiled pattern element. -/
inductive Segment where
  | Static : Str → Segment
  | Param : Str → Segment
  | Continue : Segment
deriving DecidableEq

/-- `Parser::peek`: `self.input.chars().nth(self.index).unwrap_or_default()`.
Past the end of the char sequence this is the NUL character. -/
def Parser.peek (input : Str) (i : Nat) : Char :=
  input.getD i (Char.ofNat 0)

/-- `Parser::eol`: `self.index >= self.input.len()` — note `len()` is the
byte length, while the index advances one *char* per `consume_char`. -/
def Parser.eol (input : Str) (i : Nat) : Bool :=
  decide (byteLen input ≤ i)

/-- `Parser::consume_while`, with an explicit iteration budget.  The Rust
loop `while !self.eol() && cond(self.peek())` advances the index by exactly
one per iteration and can only run while `index < byteLen input`, so a
budget of `byteLen input - i` is exact (when it reaches 0 the index has
reached `byteLen input` and `eol` is true, so the loop would stop anyway);
`Parser.consume_while` below instantiates it that way. -/
def Parser.consumeWhileGas (input : Str) (cond : Char → Bool) : Nat → Nat → Str × Nat
  | 0, i => ([], i)
  | gas + 1, i =>
    if (!Parser.eol input i) && cond (Parser.peek input i) then
      (Parser.peek input i :: (Parser.consumeWhileGas input cond gas (i + 1)).1,
       (Parser.consumeWhileGas input cond gas (i + 1)).2)
    else ([], i)

/-- `Parser::consume_while`: collect chars while the condition holds on the
peeked char and the end (in the byte-length sense) is not reached.  Returns
the collected chars and the final index. -/
def Parser.consume_while (input : Str) (cond : Char → Bool) (i : Nat) : Str × Nat :=
  Parser.consumeWhileGas input cond (byteLen input - i) i

/-- `Parser::parse_static`: consume until the next `/` or end of input; an
empty capture yields no segment.  The index always ends wherever
`consume_while` left it. -/
def Parser.parse_static (input : Str) (i : Nat) : Option Segment × Nat :=
  (if (Parser.consume_while input (fun c => c != '/') i).1.isEmpty then none
   else some (Segment.Static (Parser.consume_while input (fun c => c != '/') i).1),
   (Parser.consume_while input (fun c => c != '/') i).2)

/-- `Parser::parse_param`: consume the opening brace, then chars up to a
closing brace or `/`.  An empty capture yields no segment and — exactly as
in the source — does *not* consume the character the scan stopped on; a
non-empty capture consumes one more char (meant to be the closing brace). -/
def Parser.parse_param (input : Str) (i : Nat) : Option Segment × Nat :=
  if (Parser.consume_while input (fun c => c != '}' && c != '/') (i + 1)).1.isEmpty then
    (none, (Parser.consume_while input (fun c => c != '}' && c != '/') (i + 1)).2)
  else
    (some (Segment.Param (Parser.consume_while input (fun c => c != '}' && c != '/') (i + 1)).1),
     (Parser.consume_while input (fun c => c != '}' && c != '/') (i + 1)).2 + 1)

/-- `Parser::parse_continue`: consume the run of dots; exactly three dots
yield `Continue`, any other run length yields no segment. -/
def Parser.parse_continue (input : Str) (i : Nat) : Option Segment × Nat :=
  (if (Parser.consume_while input (fun c => c == '.') i).1 = [ '.', '.', '.' ]
   then some Segment.Continue else none,
   (Parser.consume_while input (fun c => c == '.') i).2)

/-- `Parser::parse_segment`: dispatch on the peeked char. -/
def Parser.parse_segment (input : Str) (i : Nat) : Option Segment × Nat :=
  if Parser.peek input i = '{' then Parser.parse_param input i
  else if Parser.peek input i = '.' then Parser.parse_continue input i
  else Parser.parse_static input i

/-- The `if p.peek() == '/' { p.consume_char(); }` step at the top of the
scanning loop of `Parser::parse`. -/
def Parser.skipSlash (input : Str) (i : Nat) : Nat :=
  if Parser.peek input i = '/' then i + 1 else i

/-- The scanning loop of `Parser::parse`, with an explicit iteration budget
(`none` when the budget runs out before the loop exits).  Each iteration
either breaks or strictly advances the index (proved below), so a budget of
`byteLen input + 1` always suffices; `Parser.parse` instantiates it that
way. -/
def Parser.parseLoop (input : Str) : Nat → Nat → Option (List Segment)
  | 0, _ => none
  | fuel + 1, i =>
    if Parser.eol input (Parser.skipSlash input i) then some []
    else
      match Parser.parse_segment input (Parser.skipSlash input i) with
      | (some Segment.Continue, _) => some [ Segment.Continue ]
      | (some seg, i2) => (Parser.parseLoop input fuel i2).map (fun rest => seg :: rest)
      | (none, i2) => Parser.parseLoop input fuel i2

/-- `Parser::parse`: run the scanning loop from index 0. -/
def Parser.parse (input : Str) : List Segment :=
  (Parser.parseLoop input (byteLen input + 1) 0).getD []

/-- `struct Route`: the compiled pattern.  The resolver callback is an
opaque external collaborator and is not part of the embedding. -/
structure Route where
  path : List Segment
deriving DecidableEq

/-- `struct RouteMatch`: consumed literal path, unmatched remainder,
captured parameters (the `HashMap` is embedded as an association list with
replace-on-insert), and the originating route. -/
structure RouteMatch where
  path : List Str
  remainder : List Str
  params : List (Str × Str)
  route : Route
deriving DecidableEq

/-- `RouteMatch::from(&Route)`: the empty match seeded with the route. -/
def RouteMatch.fromRoute (r : Route) : RouteMatch :=
  ⟨[], [], [], r⟩

/-- `HashMap::insert` on the association-list embedding: replace the value
under an existing key, otherwise append the binding. -/
def insertParam : List (Str × Str) → Str → Str → List (Str × Str)
  | [], k, v => [ (k, v) ]
  | (k', v') :: rest, k, v =>
    if k' = k then (k, v) :: rest else (k', v') :: insertParam rest k v

/-- `impl PartialEq for RouteMatch`: equality looks only at the consumed
literal path. -/
def RouteMatch.eq (a b : RouteMatch) : Bool :=
  decide (a.path = b.path)

/-- The loop of `Route::matches`.  Both iterators advance on every
iteration; the six match arms (in source order, with the guard of the
first arm falling through to the catch-all `None`) become the cases below. -/
def matchesGo : List Segment → List Str → RouteMatch → Option RouteMatch
  | Segment.Static seg :: ps, s :: ss, m =>
    if seg = s then matchesGo ps ss { m with path := m.path ++ [ s ] } else none
  | Segment.Param p :: ps, s :: ss, m =>
    matchesGo ps ss { m with params := insertParam m.params p s, path := m.path ++ [ s ] }
  | Segment.Continue :: ps, s :: ss, m =>
    matchesGo ps ss { m with remainder := m.remainder ++ [ s ] }
  | Segment.Continue :: _, [], m => some m
  | [], s :: ss, m =>
    if m.remainder.isEmpty then none
    else matchesGo [] ss { m with remainder := m.remainder ++ [ s ] }
  | [], [], m => some m
  | _ :: _, [], _ => none

/-- `Route::matches`: run the loop on the compiled pattern and the observed
path, starting from the empty match. -/
def Route.matches (r : Route) (sample : List Str) : Option RouteMatch :=
  matchesGo r.path sample (RouteMatch.fromRoute r)

/-- Helper for `split_path`: `str::split('/')`, accumulating the current
component in reverse. -/
def splitAux : Str → Str → List Str
  | [], acc => [ acc.reverse ]
  | c :: rest, acc =>
    if c = '/' then acc.reverse :: splitAux rest [] else splitAux rest (c :: acc)

/-- `split_path`: split on `/` and drop the empty components. -/
def split_path (p : Str) : List Str :=
  (splitAux p []).filter (fun s => !s.isEmpty)

/-- `Vec::join("/")`, as used by `RouteMatch::path` and to state the
round-trip property of `split_path`. -/
def joinSlash : List Str → Str
  | [] => []
  | [ s ] => s
  | s :: rest => s ++ '/' :: joinSlash rest

/-- The mutable state of `struct Router`: the observable `current_path`
cell and the `remainder` cell. -/
structure RouterState where
  current_path : List Str
  remainder : List Str
deriving DecidableEq

/-- `Router::new`: split the initial location and store it in both cells. -/
def Router.new (path : Str) : RouterState :=
  ⟨split_path path, split_path path⟩

/-- `Router::set_remainder`: replace the remainder cell only.  The second
component records the browser-history push requested by the call: `none`
means no push (the source performs no `push_state_with_url` here). -/
def Router.set_remainder (segs : List Str) (r : RouterState) : RouterState × Option Str :=
  ({ r with remainder := segs }, none)

/-- `Router::goto`: split the path, store it in both cells, and request a
history push with the given path string as the visible URL. -/
def Router.goto (path : Str) (_r : RouterState) : RouterState × Option Str :=
  (⟨split_path path, split_path path⟩, some path)

/-- `Router::signal_path`: the signal maps every `current_path` change to
`remainder.borrow().clone()`, so the value it emits is the remainder cell. -/
def Router.signalValue (r : RouterState) : List Str :=
  r.remainder

/-- Specification-side predicate for the trailing-wildcard claim: the
observed path starts with at least `pre.length` tokens and each of them
matches the corresponding `Static`/`Param` segment of `pre`; patterns
containing `Continue` in `pre` are excluded. -/
def preMatchesB : List Segment → List Str → Bool
  | [], _ => true
  | Segment.Static s :: ps, t :: ts => decide (s = t) && preMatchesB ps ts
  | Segment.Param _ :: ps, _ :: ts => preMatchesB ps ts
  | Segment.Continue :: _, _ => false
  | _ :: _, [] => false


/-! Index-progress lemmas for the parser. -/

/-- The index never moves backwards in `consume_while`. -/
theorem consumeWhileGas_le (input : Str) (cond : Char → Bool) :
    ∀ gas i, i ≤ (Parser.consumeWhileGas input cond gas i).2 := by
  intro gas
  induction gas with
  | zero => intro i; exact Nat.le_refl i
  | succ g ih =>
    intro i
    simp only [Parser.consumeWhileGas]
    split
    · exact Nat.le_trans (Nat.le_succ i) (ih (i + 1))
    · exact Nat.le_refl i

/-- The index never moves backwards in `consume_while`. -/
theorem consume_while_le (input : Str) (cond : Char → Bool) (i : Nat) :
    i ≤ (Parser.consume_while input cond i).2 :=
  consumeWhileGas_le input cond _ i

/-- When the loop of `consume_while` runs at least once, the index strictly
advances. -/
theorem consume_while_lt (input : Str) (cond : Char → Bool) (i : Nat)
    (he : Parser.eol input i = false) (hc : cond (Parser.peek input i) = true) :
    i < (Parser.consume_while input cond i).2 := by
  have hlt : i < byteLen input := by
    have h := he
    simp [Parser.eol] at h
    omega
  have hgas : byteLen input - i = (byteLen input - i - 1) + 1 := by omega
  have hstep : Parser.consumeWhileGas input cond ((byteLen input - i - 1) + 1) i =
      (Parser.peek input i ::
        (Parser.consumeWhileGas input cond (byteLen input - i - 1) (i + 1)).1,
       (Parser.consumeWhileGas input cond (byteLen input - i - 1) (i + 1)).2) := by
    simp [Parser.consumeWhileGas, he, hc]
  rw [Parser.consume_while, hgas, hstep]
  exact Nat.lt_of_lt_of_le (Nat.lt_succ_self i)
    (consumeWhileGas_le input cond _ (i + 1))

/-- `parse_segment` never moves the index backwards. -/
theorem parse_segment_le (input : Str) (i : Nat) :
    i ≤ (Parser.parse_segment input i).2 := by
  unfold Parser.parse_segment
  split_ifs
  · unfold Parser.parse_param
    split_ifs
    · exact Nat.le_trans (Nat.le_succ i) (consume_while_le input _ (i + 1))
    · exact Nat.le_trans (Nat.le_succ i)
        (Nat.le_trans (consume_while_le input _ (i + 1)) (Nat.le_succ _))
  · exact consume_while_le input _ i
  · exact consume_while_le input _ i

/-- Away from the end of input and from a separator, `parse_segment`
strictly advances the index. -/
theorem parse_segment_lt (input : Str) (i : Nat)
    (he : Parser.eol input i = false) (hp : Parser.peek input i ≠ '/') :
    i < (Parser.parse_segment input i).2 := by
  unfold Parser.parse_segment
  split_ifs with h1 h2
  · unfold Parser.parse_param
    split_ifs
    · exact Nat.lt_of_lt_of_le (Nat.lt_succ_self i) (consume_while_le input _ (i + 1))
    · exact Nat.lt_of_lt_of_le (Nat.lt_succ_self i)
        (Nat.le_trans (consume_while_le input _ (i + 1)) (Nat.le_succ _))
  · have hc : (Parser.peek input i == '.') = true := by simp [h2]
    exact consume_while_lt input _ i he hc
  · have hc : (Parser.peek input i != '/') = true := by simp [hp]
    exact consume_while_lt input _ i he hc

/-- One-step unfolding of the scanning loop. -/
theorem parseLoop_succ (input : Str) (f i : Nat) :
    Parser.parseLoop input (f + 1) i =
      if Parser.eol input (Parser.skipSlash input i) then some []
      else
        match Parser.parse_segment input (Parser.skipSlash input i) with
        | (some Segment.Continue, _) => some [ Segment.Continue ]
        | (some seg, i2) => (Parser.parseLoop input f i2).map (fun rest => seg :: rest)
        | (none, i2) => Parser.parseLoop input f i2 := rfl

/-- Any fuel exceeding the remaining byte budget lets the scanning loop run
to completion: every iteration strictly advances the index or breaks. -/
theorem parseLoop_isSome (input : Str) :
    ∀ fuel i, byteLen input - i < fuel → (Parser.parseLoop input fuel i).isSome = true := by
  intro fuel
  induction fuel with
  | zero => intro i h; omega
  | succ f ih =>
    intro i h
    by_cases he : Parser.eol input (Parser.skipSlash input i) = true
    · simp [parseLoop_succ, he]
    · have he' : Parser.eol input (Parser.skipSlash input i) = false :=
        Bool.eq_false_iff.mpr he
      have hjlt : Parser.skipSlash input i < byteLen input := by
        have h2 := he'
        simp [Parser.eol] at h2
        omega
      have hij : i ≤ Parser.skipSlash input i := by
        unfold Parser.skipSlash
        split_ifs <;> omega
      have hi2 : i < (Parser.parse_segment input (Parser.skipSlash input i)).2 := by
        by_cases hsl : Parser.peek input i = '/'
        · have hj : Parser.skipSlash input i = i + 1 := by simp [Parser.skipSlash, hsl]
          have hle := parse_segment_le input (Parser.skipSlash input i)
          omega
        · have hj : Parser.skipSlash input i = i := by simp [Parser.skipSlash, hsl]
          rw [hj]
          rw [hj] at he'
          exact parse_segment_lt input i he' hsl
      rcases hps : Parser.parse_segment input (Parser.skipSlash input i) with ⟨oseg, i2⟩
      have hi2' : i < i2 := by rw [hps] at hi2; exact hi2
      have hib : i < byteLen input := Nat.lt_of_le_of_lt hij hjlt
      have hrec : byteLen input - i2 < f := by omega
      cases oseg with
      | none =>
        rw [parseLoop_succ, hps]
        simp [he', ih i2 hrec]
      | some seg =>
        cases seg with
        | Static s =>
          rw [parseLoop_succ, hps]
          have hs := ih i2 hrec
          cases hpl : Parser.parseLoop input f i2 with
          | none => rw [hpl] at hs; exact absurd hs (by simp)
          | some r => simp [he', hpl]
        | Param s =>
          rw [parseLoop_succ, hps]
          have hs := ih i2 hrec
          cases hpl : Parser.parseLoop input f i2 with
          | none => rw [hpl] at hs; exact absurd hs (by simp)
          | some r => simp [he', hpl]
        | Continue =>
          rw [parseLoop_succ, hps]
          simp [he']

/-- C10: `Parser.parse` terminates and returns a segment sequence for every
input string: the scanning loop, run with the fuel bound `byteLen input + 1`
that `Parser.parse` uses, always exits with a result before the fuel runs
out (every iteration consumes at least one index step or breaks), and
`Parser.parse` returns exactly that segment sequence. -/
theorem parse_total (input : Str) :
    Parser.parseLoop input (byteLen input + 1) 0 = some (Parser.parse input) := by
  have h := parseLoop_isSome input (byteLen input + 1) 0 (by omega)
  rcases Option.isSome_iff_exists.mp h with ⟨r, hr⟩
  have hp : Parser.parse input = r := by
    unfold Parser.parse
    rw [hr]
    rfl
  rw [hr, hp]

/-- C1 counterexample: `parse` on the pattern `a/\x7b\x7d/b` does *not*
return the two-element sequence `[Static "a", Static "b"]` that the claim
states. -/
theorem parse_empty_braces_counterexample :
    Parser.parse [ 'a', '/', '{', '}', '/', 'b' ] ≠
      [ Segment.Static [ 'a' ], Segment.Static [ 'b' ] ] := by decide

/-- C1 amended: on the pattern `a/\x7b\x7d/b` the parser emits no `Param`
segment for the empty braces, but it leaves the closing brace unconsumed,
and the next loop iteration re-parses that brace as a static literal, so
the result is the three-element sequence
`[Static "a", Static "\x7d", Static "b"]`. -/
theorem parse_empty_braces_amended :
    Parser.parse [ 'a', '/', '{', '}', '/', 'b' ] =
      [ Segment.Static [ 'a' ], Segment.Static [ '}' ], Segment.Static [ 'b' ] ] := by decide

/-- C3: `parse` compiles `a/\x7bid\x7d/...` to
`[Static "a", Param "id", Continue]`, and matching that compiled pattern
against the observed path `["a","42","x","y"]` succeeds with consumed path
`["a","42"]`, parameter map binding `id` to `42`, and remainder
`["x","y"]`. -/
theorem parse_and_match_example :
    Parser.parse ( "a/{id}/..." ).data =
      [ Segment.Static ( "a" ).data, Segment.Param ( "id" ).data, Segment.Continue ] ∧
    Route.matches ⟨Parser.parse ( "a/{id}/..." ).data⟩
        [ ( "a" ).data, ( "42" ).data, ( "x" ).data, ( "y" ).data ] =
      some ⟨[ ( "a" ).data, ( "42" ).data ], [ ( "x" ).data, ( "y" ).data ],
        [ (( "id" ).data, ( "42" ).data) ],
        ⟨Parser.parse ( "a/{id}/..." ).data⟩⟩ := by
  constructor
  · decide
  · decide

/-- C5: on the one-char pattern `é` (two UTF-8 bytes) the parser does not
return the verbatim static segment: `eol` compares the char-counting cursor
against the byte length, so after the single char is consumed the loop keeps
running and `peek` pads the capture with the default NUL char.  The code
therefore yields `Static "é\x00"` instead of the verbatim `Static "é"` the
specification describes. -/
theorem parse_multibyte_nul :
    Parser.parse [ 'é' ] = [ Segment.Static [ 'é', Char.ofNat 0 ] ] ∧
    Parser.parse [ 'é' ] ≠ [ Segment.Static [ 'é' ] ] := by
  constructor
  · decide
  · decide

/-- C6: immediately after `Router::new` the remainder equals the current
path, and immediately after `Router::goto` the remainder equals the current
path — `goto` sets both cells to `split_path` of its argument. -/
theorem router_new_goto_invariant (path : Str) (r : RouterState) :
    (Router.new path).remainder = (Router.new path).current_path ∧
    ((Router.goto path r).1).remainder = ((Router.goto path r).1).current_path ∧
    ((Router.goto path r).1).remainder = split_path path ∧
    ((Router.goto path r).1).current_path = split_path path :=
  ⟨rfl, rfl, rfl, rfl⟩

/-- C7: `Router::set_remainder` replaces only the remainder cell: the
current path is unchanged, no browser-history push is requested (the
effect component is `none`, whereas `goto` produces `some path`), and the
value the path signal emits afterwards is the new remainder. -/
theorem set_remainder_frame (segs : List Str) (r : RouterState) :
    (Router.set_remainder segs r).1.current_path = r.current_path ∧
    (Router.set_remainder segs r).1.remainder = segs ∧
    (Router.set_remainder segs r).2 = none ∧
    Router.signalValue (Router.set_remainder segs r).1 = segs :=
  ⟨rfl, rfl, rfl, rfl⟩

/-- C9: `RouteMatch` equality holds exactly when the consumed literal paths
are equal — the remainder, the parameters and the originating route are
ignored — and consequently matching the same pattern against the same
observed path any number of times yields pairwise-equal `RouteMatch`
values. -/
theorem route_match_eq_path_only :
    (∀ a b : RouteMatch, RouteMatch.eq a b = true ↔ a.path = b.path) ∧
    (∀ (r : Route) (sample : List Str) (m₁ m₂ : RouteMatch),
      Route.matches r sample = some m₁ → Route.matches r sample = some m₂ →
      RouteMatch.eq m₁ m₂ = true) := by
  constructor
  · intro a b
    simp [RouteMatch.eq]
  · intro r sample m₁ m₂ h1 h2
    rw [h1] at h2
    injection h2 with h
    subst h
    simp [RouteMatch.eq]

/-- C9 witness: the path-only equality at two concrete matches that differ
in remainder, params and route, and the repeated-matching consequence at a
concrete route and path. -/
theorem route_match_eq_path_only_witness :
    RouteMatch.eq ⟨[ ( "a" ).data ], [], [], ⟨[]⟩⟩
        ⟨[ ( "a" ).data ], [ ( "x" ).data ], [ (( "k" ).data, ( "v" ).data) ],
          ⟨[ Segment.Continue ]⟩⟩ = true ∧
    RouteMatch.eq ⟨[ ( "a" ).data ], [], [], ⟨[ Segment.Static ( "a" ).data ]⟩⟩
        ⟨[ ( "a" ).data ], [], [], ⟨[ Segment.Static ( "a" ).data ]⟩⟩ = true :=
  ⟨(route_match_eq_path_only.1 _ _).mpr rfl,
   route_match_eq_path_only.2 ⟨[ Segment.Static ( "a" ).data ]⟩ [ ( "a" ).data ] _ _
     (by decide) (by decide)⟩

/-- With no `Continue` in the remaining pattern and an empty remainder so
far, the matcher fails whenever the number of remaining observed tokens
differs from the number of remaining pattern segments. -/
theorem matchesGo_no_continue_len :
    ∀ (ss : List Str) (ps : List Segment) (m : RouteMatch),
      Segment.Continue ∉ ps → m.remainder = [] → ss.length ≠ ps.length →
      matchesGo ps ss m = none := by
  intro ss
  induction ss with
  | nil =>
    intro ps m hnc _ hlen
    cases ps with
    | nil => simp at hlen
    | cons seg ps' =>
      cases seg with
      | Static s => rfl
      | Param p => rfl
      | Continue => exact absurd (List.mem_cons_self _ _) hnc
  | cons s ss' ih =>
    intro ps m hnc hrem hlen
    cases ps with
    | nil => simp [matchesGo, hrem]
    | cons seg ps' =>
      cases seg with
      | Static seg' =>
        simp only [matchesGo]
        split_ifs with hse
        · exact ih ps' _ (fun hm => hnc (List.mem_cons_of_mem _ hm)) hrem
            (by simpa using hlen)
        · rfl
      | Param p =>
        simp only [matchesGo]
        exact ih ps' _ (fun hm => hnc (List.mem_cons_of_mem _ hm)) hrem
          (by simpa using hlen)
      | Continue => exact absurd (List.mem_cons_self _ _) hnc

/-- C2: for every pattern whose compiled segment sequence contains no
`Continue`, and every observed path whose length differs from the number of
compiled segments, `Route::matches` returns no match. -/
theorem matches_length_mismatch (r : Route) (sample : List Str)
    (hnc : Segment.Continue ∉ r.path) (hlen : sample.length ≠ r.path.length) :
    Route.matches r sample = none :=
  matchesGo_no_continue_len sample r.path (RouteMatch.fromRoute r) hnc rfl hlen

/-- C2 witness: a one-segment pattern with no `Continue` against an empty
observed path fails. -/
theorem matches_length_mismatch_witness :
    Segment.Continue ∉ [ Segment.Static ( "a" ).data ] ∧
    ([] : List Str).length ≠ [ Segment.Static ( "a" ).data ].length ∧
    Route.matches ⟨[ Segment.Static ( "a" ).data ]⟩ [] = none :=
  ⟨by decide, by decide,
   matches_length_mismatch ⟨[ Segment.Static ( "a" ).data ]⟩ [] (by decide) (by decide)⟩

/-- Once the remainder is non-empty, an exhausted pattern absorbs every
remaining observed token into the remainder and succeeds. -/
theorem matchesGo_nil_absorbs :
    ∀ (ts : List Str) (m : RouteMatch), m.remainder ≠ [] →
      matchesGo [] ts m = some { m with remainder := m.remainder ++ ts } := by
  intro ts
  induction ts with
  | nil =>
    intro m _
    simp [matchesGo]
  | cons t ts' ih =>
    intro m h
    have hne : m.remainder.isEmpty = false := by
      cases hm : m.remainder with
      | nil => exact absurd hm h
      | cons x l => rfl
    have hstep : matchesGo [] (t :: ts') m =
        matchesGo [] ts' { m with remainder := m.remainder ++ [ t ] } := by
      simp [matchesGo, hne]
    rw [hstep, ih _ (by simp)]
    simp [List.append_assoc]

/-- A pattern cursor standing on `Continue` absorbs all remaining observed
tokens into the remainder and succeeds. -/
theorem matchesGo_continue_tail (rest : List Str) (m : RouteMatch) :
    matchesGo [ Segment.Continue ] rest m =
      some { m with remainder := m.remainder ++ rest } := by
  cases rest with
  | nil => simp [matchesGo]
  | cons t ts =>
    have hstep : matchesGo [ Segment.Continue ] (t :: ts) m =
        matchesGo [] ts { m with remainder := m.remainder ++ [ t ] } := rfl
    rw [hstep, matchesGo_nil_absorbs ts _ (by simp)]
    simp [List.append_assoc]

/-- Generalisation of the trailing-wildcard claim over the accumulated
match value. -/
theorem matchesGo_continue_aux :
    ∀ (pre : List Segment) (obs : List Str) (m : RouteMatch),
      preMatchesB pre obs = true →
      ∃ m', matchesGo (pre ++ [ Segment.Continue ]) obs m = some m' ∧
        m'.remainder = m.remainder ++ obs.drop pre.length := by
  intro pre
  induction pre with
  | nil =>
    intro obs m _
    exact ⟨{ m with remainder := m.remainder ++ obs },
      matchesGo_continue_tail obs m, rfl⟩
  | cons seg ps ih =>
    intro obs m h
    cases obs with
    | nil => cases seg <;> simp [preMatchesB] at h
    | cons t ts =>
      cases seg with
      | Static s =>
        have hs : s = t ∧ preMatchesB ps ts = true := by
          simpa [preMatchesB] using h
        have hstep : matchesGo ((Segment.Static s :: ps) ++ [ Segment.Continue ]) (t :: ts) m =
            if s = t then
              matchesGo (ps ++ [ Segment.Continue ]) ts { m with path := m.path ++ [ t ] }
            else none := rfl
        rw [hstep, if_pos hs.1]
        rcases ih ts { m with path := m.path ++ [ t ] } hs.2 with ⟨m', hm', hrem⟩
        exact ⟨m', hm', hrem⟩
      | Param p =>
        have hp : preMatchesB ps ts = true := by simpa [preMatchesB] using h
        have hstep : matchesGo ((Segment.Param p :: ps) ++ [ Segment.Continue ]) (t :: ts) m =
            matchesGo (ps ++ [ Segment.Continue ]) ts
              { m with params := insertParam m.params p t, path := m.path ++ [ t ] } := rfl
        rw [hstep]
        rcases ih ts _ hp with ⟨m', hm', hrem⟩
        exact ⟨m', hm', hrem⟩
      | Continue => simp [preMatchesB] at h

/-- C4: for every compiled pattern ending in `Continue` whose earlier
`Static`/`Param` segments match a prefix of the observed path,
`Route::matches` succeeds, and its remainder is exactly the (possibly
empty, unbounded) sequence of observed tokens beyond that prefix, in
order. -/
theorem matches_continue_absorbs (pre : List Segment) (obs : List Str)
    (h : preMatchesB pre obs = true) :
    (Route.matches ⟨pre ++ [ Segment.Continue ]⟩ obs).map RouteMatch.remainder =
      some (obs.drop pre.length) := by
  rcases matchesGo_continue_aux pre obs
      (RouteMatch.fromRoute ⟨pre ++ [ Segment.Continue ]⟩) h with ⟨m', hm', hrem⟩
  have hm2 : Route.matches ⟨pre ++ [ Segment.Continue ]⟩ obs = some m' := hm'
  rw [hm2]
  simpa using hrem

/-- C4 witness: the pattern `a/\x7bid\x7d/...` style prefix with one
trailing observed token beyond the prefix. -/
theorem matches_continue_absorbs_witness :
    preMatchesB [ Segment.Static ( "a" ).data, Segment.Param ( "id" ).data ]
        [ ( "a" ).data, ( "42" ).data, ( "x" ).data ] = true ∧
    (Route.matches
        ⟨[ Segment.Static ( "a" ).data, Segment.Param ( "id" ).data ] ++
          [ Segment.Continue ]⟩
        [ ( "a" ).data, ( "42" ).data, ( "x" ).data ]).map RouteMatch.remainder =
      some [ ( "x" ).data ] :=
  ⟨by decide, matches_continue_absorbs _ _ (by decide)⟩

/-- `splitAux` always returns at least one component. -/
theorem splitAux_ne_nil (p : Str) : ∀ acc, splitAux p acc ≠ [] := by
  induction p with
  | nil => intro acc; simp [splitAux]
  | cons c rest ih =>
    intro acc
    simp only [splitAux]
    split
    · simp
    · exact ih _

/-- `joinSlash` on a cons with non-empty tail inserts a separator. -/
theorem joinSlash_cons (x : Str) (l : List Str) (h : l ≠ []) :
    joinSlash (x :: l) = x ++ '/' :: joinSlash l := by
  cases l with
  | nil => exact absurd rfl h
  | cons y t => rfl

/-- Joining the components of `splitAux` restores the pending accumulator
followed by the unsplit input. -/
theorem joinSlash_splitAux (p : Str) :
    ∀ acc, joinSlash (splitAux p acc) = acc.reverse ++ p := by
  induction p with
  | nil => intro acc; simp [splitAux, joinSlash]
  | cons c rest ih =>
    intro acc
    simp only [splitAux]
    split_ifs with hc
    · rw [joinSlash_cons _ _ (splitAux_ne_nil rest []), ih []]
      simp [hc]
    · rw [ih (c :: acc)]
      simp

/-- C8: every component emitted by `split_path` is non-empty (empty
components are dropped), and on any path string whose slash-split has no
empty component (no leading, trailing, or doubled slash), joining the
output of `split_path` with `/` reproduces the original string. -/
theorem split_path_round_trip :
    (∀ (p : Str) (s : Str), s ∈ split_path p → s ≠ []) ∧
    (∀ p : Str, (∀ s ∈ splitAux p [], s ≠ []) → joinSlash (split_path p) = p) := by
  constructor
  · intro p s hs hnil
    subst hnil
    unfold split_path at hs
    rcases List.mem_filter.mp hs with ⟨-, hb⟩
    simp at hb
  · intro p hne
    have hf : (splitAux p []).filter (fun s => !s.isEmpty) = splitAux p [] := by
      rw [List.filter_eq_self]
      intro a ha
      cases hae : a with
      | nil => exact absurd hae (hne a ha)
      | cons x t => rfl
    unfold split_path
    rw [hf, joinSlash_splitAux p []]
    simp

/-- C8 witness: the canonical path `a/b` round-trips, and its first
component is non-empty. -/
theorem split_path_round_trip_witness :
    (( "a" ).data ≠ ([] : Str)) ∧
    joinSlash (split_path ( "a/b" ).data) = ( "a/b" ).data :=
  ⟨split_path_round_trip.1 ( "a/b" ).data ( "a" ).data (by decide),
   split_path_round_trip.2 ( "a/b" ).data (by decide)⟩
